import Mathlib

/-!
Verification development for the tag-validator repository.

The definitions below are a shallow embedding of the validation engine:
the stack-based validator of src/workers/validator.ts and the
closing-tag reconciliation / exclusion-range pieces of
src/workers/parser.ts.  JavaScript arrays become Lean lists (the mutable
stack's top is the list head), JS strings become Lean String values
(positions count characters), and the module-level error-id counter is
threaded through the state explicitly.  The wall-clock part of genId
(Date.now) and the onProgress callback are side effects with no influence
on the returned error list and are omitted.
-/

/-- Token kind, mirroring the type field of TagToken in src/types/index.ts. -/
inductive TokType where
  | OPEN
  | CLOSE
deriving DecidableEq

/-- A positioned tag token (src/types/index.ts TagToken).  The optional
attrs / isSelfClosing fields are omitted: validateTokens never reads them,
and the attribute handling of parser.ts is modelled separately by
attrExclusionRanges below with the attribute map passed explicitly. -/
structure TagToken where
  type : TokType
  name : String
  line : Nat
  column : Nat
deriving DecidableEq

/-- Fix suggestion kind (src/types/index.ts FixSuggestion.type). -/
inductive SuggestionType where
  | ADD_CLOSING_TAG
  | REMOVE_TAG
  | SWAP_TAGS
deriving DecidableEq

/-- src/types/index.ts FixSuggestion. -/
structure FixSuggestion where
  type : SuggestionType
  description : String
  replacement : String
  precedence : Nat
deriving DecidableEq

/-- src/types/index.ts ErrorType. -/
inductive ErrorType where
  | MISMATCH
  | MISSING_OPEN
  | MISSING_CLOSE
deriving DecidableEq

/-- src/types/index.ts ValidationError.  The id field holds the threaded
counter value of genId (validator.ts line 4); the Date.now suffix is
dropped as nondeterministic wall-clock data. -/
structure VError where
  id : Nat
  type : ErrorType
  severity : String
  line : Nat
  column : Nat
  tag : String
  expected : Option String
  context : String
  message : String
  relatedLine : Option Nat
  relatedTag : Option String
  suggestions : List FixSuggestion
deriving DecidableEq

/-- validator.ts StackEntry. -/
structure StackEntry where
  name : String
  line : Nat
  column : Nat
deriving DecidableEq

/-- parser.ts VOID_ELEMENTS. -/
def VOID_ELEMENTS : List String :=
  ["area", "base", "br", "col", "embed", "hr", "img", "input",
   "link", "meta", "param", "source", "track", "wbr",
   "command", "keygen", "menuitem"]

/-- validator.ts ValidateOptions: maxErrors is optional (default 500 applied
inside validateTokens, as in the source destructuring), content is the
original text used for context extraction.  onProgress is omitted (pure
side effect). -/
structure ValidateOptions where
  maxErrors : Option Nat
  content : String

/-- The whitespace class JS recognises (String.prototype.trim and the
regex escape for whitespace): space, tab, newline, carriage return,
vertical tab, form feed and the no-break space.  The exotic Unicode
space separators never occur in the claims' inputs. -/
def isJsWhitespace (c : Char) : Bool :=
  c = ' ' || c = '\t' || c = '\n' || c = '\r' ||
  c = '\x0b' || c = '\x0c' || c = '\u00a0'

/-- JS String.prototype.split on the newline character, over the
underlying character list: empty input yields one empty piece, and
every newline starts a new piece. -/
def splitLines : List Char → List (List Char)
  | [] => [[]]
  | c :: rest =>
    if c = '\n' then [] :: splitLines rest
    else
      match splitLines rest with
      | [] => [[c]]
      | l :: ls => (c :: l) :: ls

/-- JS String.prototype.trim on the underlying character list: drop
whitespace from both ends. -/
def jsTrim (cs : List Char) : List Char :=
  ((cs.dropWhile isJsWhitespace).reverse.dropWhile isJsWhitespace).reverse

/-- JS String.prototype.toLowerCase restricted to the characters tag
names can hold (Char.toLower lowers exactly the ASCII uppercase
letters). -/
def toLowerStr (s : String) : String := String.mk (s.data.map Char.toLower)

/-- validator.ts extractContext.  The source's default radius is 40; call
sites pass it explicitly here.  JS slice(0, radius*2) becomes take, and
the appended ellipsis character is the same one-character marker. -/
def extractContext (content : String) (line : Nat) (radius : Nat) : String :=
  let lines := splitLines content.data
  let targetLine := lines.getD (line - 1) []
  if targetLine.length > radius * 2 then
    String.mk (targetLine.take (radius * 2)) ++ "…"
  else
    String.mk (jsTrim targetLine)

/-- validator.ts buildSuggestions.  The source's optional expected
parameter is always supplied at the MISMATCH call site and unused
otherwise; it is a plain String here ("" at non-MISMATCH call sites).
The source's .filter(Boolean) on the MISMATCH list is an identity on a
list of object literals and is dropped. -/
def buildSuggestions (ty : ErrorType) (tag : String) (expected : String) : List FixSuggestion :=
  match ty with
  | ErrorType.MISSING_CLOSE =>
    [{ type := SuggestionType.ADD_CLOSING_TAG,
       description := "Add </" ++ tag ++ "> closing tag",
       replacement := "</" ++ tag ++ ">",
       precedence := 1 }]
  | ErrorType.MISSING_OPEN =>
    [{ type := SuggestionType.REMOVE_TAG,
       description := "Remove orphaned </" ++ tag ++ ">",
       replacement := "",
       precedence := 1 }]
  | ErrorType.MISMATCH =>
    [{ type := SuggestionType.SWAP_TAGS,
       description := "Change </" ++ tag ++ "> to </" ++ expected ++ ">",
       replacement := "</" ++ expected ++ ">",
       precedence := 1 },
     { type := SuggestionType.ADD_CLOSING_TAG,
       description := "Insert </" ++ expected ++ "> before </" ++ tag ++ ">",
       replacement := "</" ++ expected ++ "></" ++ tag ++ ">",
       precedence := 2 }]

/-- The MISSING_OPEN error pushed at validator.ts lines 95-105. -/
def mkMissingOpenErr (content : String) (nid : Nat) (t : TagToken) : VError :=
  { id := nid, type := ErrorType.MISSING_OPEN, severity := "error",
    line := t.line, column := t.column, tag := t.name, expected := none,
    context := extractContext content t.line 40,
    message := "Found </" ++ t.name ++ "> but there is no opening <" ++ t.name ++ "> tag",
    relatedLine := none, relatedTag := none,
    suggestions := buildSuggestions ErrorType.MISSING_OPEN t.name "" }

/-- The MISMATCH error pushed at validator.ts lines 112-125. -/
def mkMismatchErr (content : String) (nid : Nat) (t : TagToken) (top : StackEntry) : VError :=
  { id := nid, type := ErrorType.MISMATCH, severity := "error",
    line := t.line, column := t.column, tag := t.name, expected := some top.name,
    context := extractContext content t.line 40,
    message := "Expected </" ++ top.name ++ "> (opened at line " ++ toString top.line
      ++ ") but found </" ++ t.name ++ ">",
    relatedLine := some top.line, relatedTag := some top.name,
    suggestions := buildSuggestions ErrorType.MISMATCH t.name top.name }

/-- The recovery MISSING_CLOSE error pushed at validator.ts lines 131-142. -/
def mkMissingCloseRec (content : String) (nid : Nat) (t : TagToken) (unclosed : StackEntry) : VError :=
  { id := nid, type := ErrorType.MISSING_CLOSE, severity := "error",
    line := unclosed.line, column := unclosed.column, tag := unclosed.name, expected := none,
    context := extractContext content unclosed.line 40,
    message := "<" ++ unclosed.name ++ "> opened at line " ++ toString unclosed.line
      ++ " was never closed",
    relatedLine := some t.line, relatedTag := none,
    suggestions := buildSuggestions ErrorType.MISSING_CLOSE unclosed.name "" }

/-- The end-of-input MISSING_CLOSE error pushed at validator.ts lines 156-166. -/
def mkMissingCloseEof (content : String) (nid : Nat) (unclosed : StackEntry) : VError :=
  { id := nid, type := ErrorType.MISSING_CLOSE, severity := "error",
    line := unclosed.line, column := unclosed.column, tag := unclosed.name, expected := none,
    context := extractContext content unclosed.line 40,
    message := "<" ++ unclosed.name ++ "> opened at line " ++ toString unclosed.line
      ++ " was never closed before end of file",
    relatedLine := none, relatedTag := none,
    suggestions := buildSuggestions ErrorType.MISSING_CLOSE unclosed.name "" }

/-- Loop state of validateTokens: the mutable stack, the error
accumulator, and the genId counter.  The matched field is specification
instrumentation only: it counts CLOSE tokens that popped an
identically-named stack entry (the clean-match pop at validator.ts line
108 and the silent post-recovery pop at line 147).  It influences
neither stack nor errors. -/
structure VState where
  stack : List StackEntry
  errors : List VError
  nextId : Nat
  matched : Nat
deriving DecidableEq

/-- The error-recovery while loop of validator.ts lines 128-144: pop while
the top differs from the token name, pushing a MISSING_CLOSE per popped
entry only while the error cap is not reached (the pop itself is
unconditional). -/
def recoverPop (maxE : Nat) (content : String) (t : TagToken) :
    List StackEntry → List VError → Nat → List StackEntry × List VError × Nat
  | [], errs, nid => ([], errs, nid)
  | top :: rest, errs, nid =>
    if top.name = t.name then (top :: rest, errs, nid)
    else if errs.length < maxE then
      recoverPop maxE content t rest (errs ++ [mkMissingCloseRec content nid t top]) (nid + 1)
    else
      recoverPop maxE content t rest errs nid

/-- The body of the token loop of validateTokens (validator.ts lines
85-150) for a single token. -/
def stepToken (maxE : Nat) (content : String) (t : TagToken) (s : VState) : VState :=
  match t.type with
  | TokType.OPEN =>
    if t.name ∈ VOID_ELEMENTS then s
    else { s with stack := { name := t.name, line := t.line, column := t.column } :: s.stack }
  | TokType.CLOSE =>
    if t.name ∈ VOID_ELEMENTS then s
    else
      match s.stack with
      | [] =>
        { s with errors := s.errors ++ [mkMissingOpenErr content s.nextId t],
                 nextId := s.nextId + 1 }
      | top :: rest =>
        if top.name = t.name then
          { s with stack := rest, matched := s.matched + 1 }
        else
          let e1 := s.errors ++ [mkMismatchErr content s.nextId t top]
          let r := recoverPop maxE content t (top :: rest) e1 (s.nextId + 1)
          match r.1 with
          | top2 :: rest2 =>
            if top2.name = t.name then
              { stack := rest2, errors := r.2.1, nextId := r.2.2, matched := s.matched + 1 }
            else
              { stack := top2 :: rest2, errors := r.2.1, nextId := r.2.2, matched := s.matched }
          | [] => { stack := [], errors := r.2.1, nextId := r.2.2, matched := s.matched }

/-- The token for-loop of validateTokens (validator.ts lines 76-151),
including the break once errors.length reaches the cap. -/
def runTokens (maxE : Nat) (content : String) : List TagToken → VState → VState
  | [], s => s
  | t :: rest, s =>
    if maxE ≤ s.errors.length then s
    else runTokens maxE content rest (stepToken maxE content t s)

/-- The end-of-input while loop of validateTokens (validator.ts lines
154-167): report remaining stack entries as MISSING_CLOSE while under
the cap.  The leftover stack (nonempty only when the cap stops the loop)
is returned for bookkeeping. -/
def drainAux (maxE : Nat) (content : String) :
    List StackEntry → List VError → Nat → List StackEntry × List VError × Nat
  | [], errs, nid => ([], errs, nid)
  | top :: rest, errs, nid =>
    if errs.length < maxE then
      drainAux maxE content rest (errs ++ [mkMissingCloseEof content nid top]) (nid + 1)
    else (top :: rest, errs, nid)

/-- Initial loop state; the genId counter produces 1 for the first error. -/
def initState : VState := { stack := [], errors := [], nextId := 1, matched := 0 }

/-- The state after the token loop and the end-of-input unwind, before
deduplication and sorting. -/
def rawState (tokens : List TagToken) (opts : ValidateOptions) : VState :=
  let maxE := opts.maxErrors.getD 500
  let r := runTokens maxE opts.content tokens initState
  let d := drainAux maxE opts.content r.stack r.errors r.nextId
  { stack := d.1, errors := d.2.1, nextId := d.2.2, matched := r.matched }

/-- The raw (pre-dedup, pre-sort) error list of a validateTokens run. -/
def rawErrors (tokens : List TagToken) (opts : ValidateOptions) : List VError :=
  (rawState tokens opts).errors

/-- The dedup key of validator.ts line 172: the template string
type + ":" + tag + ":" + line separates its three fields unambiguously
(the numeric line part contains no colon), so it is modelled as the
triple itself. -/
def errKey (e : VError) : ErrorType × String × Nat := (e.type, e.tag, e.line)

/-- The filter-with-seen-set deduplication of validator.ts lines 170-176. -/
def dedupAux : List (ErrorType × String × Nat) → List VError → List VError
  | _, [] => []
  | seen, e :: rest =>
    if errKey e ∈ seen then dedupAux seen rest
    else e :: dedupAux (errKey e :: seen) rest

/-- validator.ts lines 169-176. -/
def dedupErrors (errs : List VError) : List VError := dedupAux [] errs

/-- The comparator of validator.ts line 179 as an ordering relation:
ascending line, then ascending column. -/
def errLe (a b : VError) : Prop :=
  a.line < b.line ∨ (a.line = b.line ∧ a.column ≤ b.column)

instance : DecidableRel errLe := fun a b =>
  inferInstanceAs (Decidable (a.line < b.line ∨ (a.line = b.line ∧ a.column ≤ b.column)))

instance : IsTotal VError errLe :=
  ⟨by intro a b; unfold errLe; omega⟩

instance : IsTrans VError errLe :=
  ⟨by intro a b c; unfold errLe; omega⟩

/-- The final sort of validator.ts line 179.  JS Array.prototype.sort is
required to be stable; the stable insertion sort on the same ordering
produces the identical list. -/
def sortErrors (errs : List VError) : List VError := List.insertionSort errLe errs

/-- validator.ts validateTokens: run the token loop, drain the stack,
deduplicate and sort. -/
def validateTokens (tokens : List TagToken) (opts : ValidateOptions) : List VError :=
  sortErrors (dedupErrors (rawErrors tokens opts))

/-! ## Embedding of the parser.ts pieces the claims need -/

/-- parser.ts lines 44-47: table of line-start offsets (0, and each
offset just after a newline). -/
def lineOffsetsAux : List Char → Nat → List Nat
  | [], _ => []
  | c :: rest, i =>
    if c = '\n' then (i + 1) :: lineOffsetsAux rest (i + 1)
    else lineOffsetsAux rest (i + 1)

/-- parser.ts lineOffsets table for a content string. -/
def lineOffsets (content : String) : List Nat := 0 :: lineOffsetsAux content.data 0

/-- The binary-search loop of parser.ts offsetToLineCol (lines 49-58),
fuel-structured; lo and hi move exactly as in the source
(mid = ceil of the midpoint). -/
def bsearchLine (offs : List Nat) (offset : Nat) : Nat → Nat → Nat → Nat
  | 0, lo, _ => lo
  | fuel + 1, lo, hi =>
    if lo < hi then
      let mid := (lo + hi + 1) / 2
      if offs.getD mid 0 ≤ offset then bsearchLine offs offset fuel mid hi
      else bsearchLine offs offset fuel lo (mid - 1)
    else lo

/-- parser.ts offsetToLineCol: 1-based (line, column) of a byte offset. -/
def offsetToLineCol (content : String) (offset : Nat) : Nat × Nat :=
  let offs := lineOffsets content
  let lo := bsearchLine offs offset offs.length 0 (offs.length - 1)
  (lo + 1, offset - offs.getD lo 0 + 1)

/-- The trailing name characters of the pattern: [a-zA-Z0-9_:-]. -/
def isNameChar (c : Char) : Bool :=
  c.isAlphanum || c = '_' || c = ':' || c = '-'

/-- One attempted match of the closing-tag pattern of parser.ts line 168
at character position i: the literal "</", a leading ASCII letter, a run
of name characters, optional whitespace, then ">".  Returns the captured
raw name and the match length.  The three character classes are pairwise
disjoint and exclude ">", so greedy matching is deterministic. -/
def matchCloseAt (cs : List Char) (i : Nat) : Option (String × Nat) :=
  match cs.drop i with
  | a :: b :: c :: rest =>
    if a = '<' ∧ b = '/' ∧ c.isAlpha then
      let nm := rest.takeWhile isNameChar
      let rest1 := rest.dropWhile isNameChar
      let ws := rest1.takeWhile isJsWhitespace
      let rest2 := rest1.dropWhile isJsWhitespace
      match rest2 with
      | '>' :: _ => some (String.mk (c :: nm), nm.length + ws.length + 4)
      | _ => none
    else none
  | _ => none

/-- The regex exec loop of parser.ts lines 169-171: scan left to right,
at a match record it and resume just past it, otherwise advance one
position.  Fuel-structured; the position advances by at least one per
step, so fuel = remaining length suffices. -/
def scanCloseAux (cs : List Char) : Nat → Nat → List (Nat × String)
  | 0, _ => []
  | fuel + 1, i =>
    if i < cs.length then
      match matchCloseAt cs i with
      | some (nm, len) => (i, nm) :: scanCloseAux cs fuel (i + len)
      | none => scanCloseAux cs fuel (i + 1)
    else []

/-- All (offset, raw captured name) matches of the closing-tag pattern in
the content, in the order the exec loop finds them. -/
def scanMatches (content : String) : List (Nat × String) :=
  scanCloseAux content.data content.data.length 0

/-- The comparator of parser.ts line 158 (sort exclusion ranges by start
offset) as an ordering relation. -/
def rangeLe (a b : Nat × Nat) : Prop := a.1 ≤ b.1

instance : DecidableRel rangeLe := fun a b => inferInstanceAs (Decidable (a.1 ≤ b.1))

instance : IsTotal (Nat × Nat) rangeLe :=
  ⟨by intro a b; unfold rangeLe; omega⟩

instance : IsTrans (Nat × Nat) rangeLe :=
  ⟨by intro a b c; unfold rangeLe; omega⟩

/-- parser.ts line 158: the stable sort of the recorded exclusion ranges. -/
def sortRanges (rs : List (Nat × Nat)) : List (Nat × Nat) := List.insertionSort rangeLe rs

/-- parser.ts isExcluded (lines 160-166): linear scan over the sorted
ranges, breaking as soon as a range starts beyond the offset. -/
def isExcluded : List (Nat × Nat) → Nat → Bool
  | [], _ => false
  | (s, e) :: rest, off =>
    if s > off then false
    else if s ≤ off ∧ off ≤ e then true
    else isExcluded rest off

/-- The filter part of the secondary-scan loop of parser.ts lines
171-193: keep a match when its lowercased name is not void, its offset
was not already emitted by the first pass, and its offset is not inside
any (sorted) exclusion range. -/
def injectedCloses (content : String) (emitted : List Nat) (ranges : List (Nat × Nat)) :
    List (Nat × String) :=
  let sorted := sortRanges ranges
  (scanMatches content).filter fun m =>
    decide (toLowerStr m.2 ∉ VOID_ELEMENTS) &&
    decide (m.1 ∉ emitted) &&
    !(isExcluded sorted m.1)

/-- The synthetic CLOSE token pushed at parser.ts lines 186-192. -/
def mkSynthCloseTok (content : String) (off : Nat) (nm : String) : TagToken :=
  { type := TokType.CLOSE, name := toLowerStr nm,
    line := (offsetToLineCol content off).1,
    column := (offsetToLineCol content off).2 }

/-- The synthetic CLOSE tokens appended by the secondary scan, in scan
order (the source interleaves the filtering and the push; filtering
first and then mapping to tokens yields the same list). -/
def secondaryTokens (content : String) (emitted : List Nat) (ranges : List (Nat × Nat)) :
    List TagToken :=
  (injectedCloses content emitted ranges).map fun m => mkSynthCloseTok content m.1 m.2

/-- The search loop behind JS String.prototype.indexOf(val, start) for a
nonempty needle: the least position at or after start where val occurs,
none when absent.  Fuel-structured. -/
def strIndexOfAux (cs val : List Char) : Nat → Nat → Option Nat
  | 0, _ => none
  | fuel + 1, i =>
    if i + val.length ≤ cs.length then
      if val.isPrefixOf (cs.drop i) then some i
      else strIndexOfAux cs val fuel (i + 1)
    else none

/-- content.indexOf(val, start) of parser.ts line 98. -/
def strIndexOf (cs val : List Char) (start : Nat) : Option Nat :=
  strIndexOfAux cs val (cs.length + 1) start

/-- The attribute-value exclusion loop of parser.ts lines 93-102 for one
open tag at the given start offset: for each attribute value (in
insertion order), look for its first occurrence at or after the tag
offset and record an inclusive range when the occurrence starts before
min(content length, offset + 2048).  The JS falsiness guard on the value
(null or empty string) is modelled by the empty string. -/
def attrExclusionRanges (content : String) (offset : Nat) (attrs : List (String × String)) :
    List (Nat × Nat) :=
  attrs.filterMap fun a =>
    if a.2 = "" then none
    else
      match strIndexOf content.data a.2.data offset with
      | some idx =>
        if idx < min content.length (offset + 2048) then some (idx, idx + a.2.length - 1)
        else none
      | none => none

/-- Modelled from the claim wording for comparison: a range is recorded
exactly when the value's first occurrence at or after the tag offset
starts strictly within 2048 characters of that offset. -/
def attrExclusionRangesClaim (content : String) (offset : Nat) (attrs : List (String × String)) :
    List (Nat × Nat) :=
  attrs.filterMap fun a =>
    if a.2 = "" then none
    else
      match strIndexOf content.data a.2.data offset with
      | some idx =>
        if idx < offset + 2048 then some (idx, idx + a.2.length - 1)
        else none
      | none => none

/-! ## Specification-side helper functions used in theorem statements -/

/-- The entries the recovery loop pops for token t: the maximal leading
run of stack entries whose name differs from t's. -/
def unwindPops (t : TagToken) : List StackEntry → List StackEntry
  | [] => []
  | top :: rest => if top.name = t.name then [] else top :: unwindPops t rest

/-- The stack left when the recovery loop stops (empty, or headed by an
entry named like t). -/
def unwindRest (t : TagToken) : List StackEntry → List StackEntry
  | [] => []
  | top :: rest => if top.name = t.name then top :: rest else unwindRest t rest

/-- The MISSING_CLOSE errors the recovery loop emits for a popped run,
with consecutive ids from nid. -/
def recEmits (content : String) (t : TagToken) : List StackEntry → Nat → List VError
  | [], _ => []
  | top :: rest, nid => mkMissingCloseRec content nid t top :: recEmits content t rest (nid + 1)

/-- The MISSING_CLOSE errors the end-of-input unwind emits for a stack,
with consecutive ids from nid. -/
def eofEmits (content : String) : List StackEntry → Nat → List VError
  | [], _ => []
  | top :: rest, nid => mkMissingCloseEof content nid top :: eofEmits content rest (nid + 1)

/-- Number of non-void OPEN tokens in a token list (each of these is
pushed when the loop reaches it). -/
def openCount : List TagToken → Nat
  | [] => 0
  | t :: rest =>
    (if t.type = TokType.OPEN ∧ t.name ∉ VOID_ELEMENTS then 1 else 0) + openCount rest

/-- Number of MISSING_CLOSE errors in an error list. -/
def mccount : List VError → Nat
  | [] => 0
  | e :: rest => (if e.type = ErrorType.MISSING_CLOSE then 1 else 0) + mccount rest

/-- The conservation measure: matched CLOSE pops plus MISSING_CLOSE
errors emitted plus entries still open. -/
def conserveMeasure (s : VState) : Nat := s.matched + mccount s.errors + s.stack.length

/-- The source line (1-based) of a content string, as split by the
newline character; empty when out of range. -/
def lineAt (content : String) (line : Nat) : String :=
  String.mk ((splitLines content.data).getD (line - 1) [])

/-- Modelled from the amended claim wording for comparison with
extractContext: the trimmed line when the raw line has at most 80
characters, otherwise the first 80 characters of the raw line followed
by the ellipsis marker. -/
def contextAmended (content : String) (line : Nat) : String :=
  let l := lineAt content line
  if l.length > 80 then String.mk (l.data.take 80) ++ "…" else String.mk (jsTrim l.data)

/-- Boolean contiguous-sublist test on character lists. -/
def isInfixB (xs : List Char) : List Char → Bool
  | [] => xs.isEmpty
  | c :: rest => xs.isPrefixOf (c :: rest) || isInfixB xs rest

/-- The checkable consequence of the claimed context-extraction contract:
the context is carved out of the trimmed source line - either directly a
contiguous piece of it, or a contiguous piece with the ellipsis marker
appended. -/
def claimC6ok (content : String) (e : VError) : Bool :=
  let l := String.mk (jsTrim (lineAt content e.line).data)
  isInfixB e.context.data l.data ||
    (e.context.data.getLast? == some '…' && isInfixB e.context.data.dropLast l.data)

/-- The post-recovery stack adjustment of validator.ts lines 145-148
applied to a recovery result: pop the matching top if recovery stopped on
one (that pop is a silent match of the triggering CLOSE token). -/
def afterRecovery (tname : String) (s : VState) (stk2 : List StackEntry)
    (errs2 : List VError) (nid2 : Nat) : VState :=
  match stk2 with
  | top2 :: rest2 =>
    if top2.name = tname then
      { stack := rest2, errors := errs2, nextId := nid2, matched := s.matched + 1 }
    else
      { stack := top2 :: rest2, errors := errs2, nextId := nid2, matched := s.matched }
  | [] => { stack := [], errors := errs2, nextId := nid2, matched := s.matched }

/-! ## Context propagation -/

/-- Every error carries the context of its own line. -/
def ctxOk (content : String) (e : VError) : Prop :=
  e.context = extractContext content e.line 40

/-! ## Concrete inputs for the scenario claims -/

/-- Token stream of the input given in the mismatch scenario:
OPEN div at (1,1), OPEN span at (1,6), CLOSE div at (1,16). -/
def c3toks : List TagToken :=
  [⟨TokType.OPEN, "div", 1, 1⟩, ⟨TokType.OPEN, "span", 1, 6⟩, ⟨TokType.CLOSE, "div", 1, 16⟩]

def c3content : String := "<div><span>text</div>"

def c3opts : ValidateOptions := ⟨none, c3content⟩

/-- Token stream of the unclosed-tags scenario: OPEN div at (1,1),
OPEN span at (1,6), no CLOSE tokens. -/
def c4toks : List TagToken :=
  [⟨TokType.OPEN, "div", 1, 1⟩, ⟨TokType.OPEN, "span", 1, 6⟩]

def c4opts : ValidateOptions := ⟨none, "<div><span>no close"⟩

/-- Token stream of the orphaned-close scenario: OPEN div at (1,1),
CLOSE div at (1,10), CLOSE div at (1,16). -/
def c9toks : List TagToken :=
  [⟨TokType.OPEN, "div", 1, 1⟩, ⟨TokType.CLOSE, "div", 1, 10⟩, ⟨TokType.CLOSE, "div", 1, 16⟩]

def c9opts : ValidateOptions := ⟨none, "<div>text</div></div>"⟩

/-- Two non-void OPEN tokens, cap of one error: the second unwind report
is suppressed by the cap. -/
def c1cexToks : List TagToken :=
  [⟨TokType.OPEN, "a", 1, 1⟩, ⟨TokType.OPEN, "b", 1, 4⟩]

def c1cexOpts : ValidateOptions := ⟨some 1, "<a><b>"⟩

/-- Inputs exercising the conservation ledger on a clean match. -/
def c1wToks : List TagToken :=
  [⟨TokType.OPEN, "div", 1, 1⟩, ⟨TokType.CLOSE, "div", 1, 6⟩]

def c1wOpts : ValidateOptions := ⟨none, "<div></div>"⟩

/-- Mismatch under a cap of one: the MISMATCH itself exhausts the cap, so
the two recovery pops report nothing. -/
def c3cexToks : List TagToken :=
  [⟨TokType.OPEN, "a", 1, 1⟩, ⟨TokType.OPEN, "b", 1, 4⟩, ⟨TokType.CLOSE, "c", 1, 7⟩]

def c3cexOpts : ValidateOptions := ⟨some 1, "<a><b></c>"⟩

/-- Loop state just before the CLOSE div token of the mismatch scenario. -/
def c3wState : VState :=
  { stack := [⟨"span", 1, 6⟩, ⟨"div", 1, 1⟩], errors := [], nextId := 1, matched := 0 }

def c3wTok : TagToken := ⟨TokType.CLOSE, "div", 1, 16⟩

/-- A long line with one leading space: the code context window is the
first 80 raw characters, not a window of the trimmed line around
column 90. -/
def c6content : String := " " ++ String.mk (List.replicate 100 'a')

def c6toks : List TagToken := [⟨TokType.CLOSE, "div", 1, 90⟩]

def c6opts : ValidateOptions := ⟨none, c6content⟩

def c6wToks : List TagToken := [⟨TokType.CLOSE, "div", 1, 1⟩]

def c6wOpts : ValidateOptions := ⟨none, "x</div>"⟩

/-- Fallback error value for selecting list heads in witnesses. -/
def dummyErr : VError :=
  ⟨0, ErrorType.MISMATCH, "error", 0, 0, "", none, "", "", none, none, []⟩

def c7wToks : List TagToken := [⟨TokType.CLOSE, "div", 1, 1⟩]

def c7wOpts : ValidateOptions := ⟨none, ""⟩

def c7wErr : VError := (validateTokens c7wToks c7wOpts).headD dummyErr

def c6wErr : VError := (validateTokens c6wToks c6wOpts).headD dummyErr

def c2wContent : String := "</div>"

/-! ## Structural lemmas about the validator loops -/

theorem mccount_append (a b : List VError) : mccount (a ++ b) = mccount a + mccount b := by
  induction a with
  | nil => simp [mccount]
  | cons e rest ih => simp [mccount, ih]; omega

theorem mccount_recEmits (content : String) (t : TagToken) (l : List StackEntry) (nid : Nat) :
    mccount (recEmits content t l nid) = l.length := by
  induction l generalizing nid with
  | nil => simp [recEmits, mccount]
  | cons top rest ih => simp [recEmits, mccount, mkMissingCloseRec, ih]; omega

theorem mccount_eofEmits (content : String) (l : List StackEntry) (nid : Nat) :
    mccount (eofEmits content l nid) = l.length := by
  induction l generalizing nid with
  | nil => simp [eofEmits, mccount]
  | cons top rest ih => simp [eofEmits, mccount, mkMissingCloseEof, ih]; omega

theorem unwindRest_head (t : TagToken) (entries : List StackEntry) (top2 : StackEntry)
    (rest2 : List StackEntry) (h : unwindRest t entries = top2 :: rest2) :
    top2.name = t.name := by
  induction entries with
  | nil => simp [unwindRest] at h
  | cons top rest ih =>
    by_cases hn : top.name = t.name
    · simp [unwindRest, hn] at h
      rw [← h.1]; exact hn
    · simp [unwindRest, hn] at h
      exact ih h

theorem unwind_length (t : TagToken) (entries : List StackEntry) :
    (unwindPops t entries).length + (unwindRest t entries).length = entries.length := by
  induction entries with
  | nil => simp [unwindPops, unwindRest]
  | cons top rest ih =>
    by_cases hn : top.name = t.name
    · simp [unwindPops, unwindRest, hn]
    · simp [unwindPops, unwindRest, hn]
      omega

theorem recoverPop_mono (maxE : Nat) (content : String) (t : TagToken)
    (entries : List StackEntry) (errs : List VError) (nid : Nat) :
    errs.length ≤ (recoverPop maxE content t entries errs nid).2.1.length := by
  induction entries generalizing errs nid with
  | nil => simp [recoverPop]
  | cons top rest ih =>
    by_cases hn : top.name = t.name
    · simp [recoverPop, hn]
    · by_cases hc : errs.length < maxE
      · simp only [recoverPop, if_pos hc, if_neg hn]
        calc errs.length ≤ (errs ++ [mkMissingCloseRec content nid t top]).length := by
              simp
          _ ≤ _ := ih _ _
      · simp only [recoverPop, if_neg hc, if_neg hn]
        exact ih _ _

theorem recoverPop_prefix (maxE : Nat) (content : String) (t : TagToken)
    (entries : List StackEntry) (errs : List VError) (nid : Nat) :
    ∃ tail, (recoverPop maxE content t entries errs nid).2.1 = errs ++ tail := by
  induction entries generalizing errs nid with
  | nil => exact ⟨[], by simp [recoverPop]⟩
  | cons top rest ih =>
    by_cases hn : top.name = t.name
    · exact ⟨[], by simp [recoverPop, hn]⟩
    · by_cases hc : errs.length < maxE
      · obtain ⟨tail, htail⟩ := ih (errs ++ [mkMissingCloseRec content nid t top]) (nid + 1)
        exact ⟨mkMissingCloseRec content nid t top :: tail, by
          simp only [recoverPop, if_pos hc, if_neg hn]
          simpa using htail⟩
      · simp only [recoverPop, if_neg hc, if_neg hn]
        exact ih _ _

theorem recoverPop_bound (maxE : Nat) (content : String) (t : TagToken)
    (entries : List StackEntry) (errs : List VError) (nid : Nat)
    (h : errs.length ≤ maxE) :
    (recoverPop maxE content t entries errs nid).2.1.length ≤ maxE := by
  induction entries generalizing errs nid with
  | nil => simpa [recoverPop]
  | cons top rest ih =>
    by_cases hn : top.name = t.name
    · simpa [recoverPop, hn]
    · by_cases hc : errs.length < maxE
      · simp only [recoverPop, if_pos hc, if_neg hn]
        exact ih _ _ (by simp; omega)
      · simp only [recoverPop, if_neg hc, if_neg hn]
        exact ih _ _ h

theorem recoverPop_headroom (maxE : Nat) (content : String) (t : TagToken)
    (entries : List StackEntry) (errs : List VError) (nid : Nat)
    (h : errs.length + (unwindPops t entries).length ≤ maxE) :
    recoverPop maxE content t entries errs nid =
      (unwindRest t entries,
       errs ++ recEmits content t (unwindPops t entries) nid,
       nid + (unwindPops t entries).length) := by
  induction entries generalizing errs nid with
  | nil => simp [recoverPop, unwindRest, unwindPops, recEmits]
  | cons top rest ih =>
    by_cases hn : top.name = t.name
    · simp [recoverPop, unwindRest, unwindPops, recEmits, hn]
    · have hk : (unwindPops t (top :: rest)).length =
          (unwindPops t rest).length + 1 := by simp [unwindPops, hn]
      have hc : errs.length < maxE := by omega
      simp only [recoverPop, if_pos hc, if_neg hn]
      rw [ih (errs ++ [mkMissingCloseRec content nid t top]) (nid + 1) (by simp; omega)]
      simp [unwindRest, unwindPops, recEmits, hn]
      omega

theorem recoverPop_chr (maxE : Nat) (content : String) (t : TagToken)
    (entries : List StackEntry) (errs : List VError) (nid : Nat)
    (h : (recoverPop maxE content t entries errs nid).2.1.length < maxE) :
    recoverPop maxE content t entries errs nid =
      (unwindRest t entries,
       errs ++ recEmits content t (unwindPops t entries) nid,
       nid + (unwindPops t entries).length) := by
  induction entries generalizing errs nid with
  | nil => simp [recoverPop, unwindRest, unwindPops, recEmits]
  | cons top rest ih =>
    by_cases hn : top.name = t.name
    · simp [recoverPop, unwindRest, unwindPops, recEmits, hn]
    · by_cases hc : errs.length < maxE
      · simp only [recoverPop, if_pos hc, if_neg hn] at h ⊢
        rw [ih (errs ++ [mkMissingCloseRec content nid t top]) (nid + 1) h]
        simp [unwindRest, unwindPops, recEmits, hn]
        omega
      · exfalso
        simp only [recoverPop, if_neg hc, if_neg hn] at h
        have := recoverPop_mono maxE content t rest errs nid
        omega

theorem stepToken_open_void (maxE : Nat) (content : String) (t : TagToken) (s : VState)
    (hty : t.type = TokType.OPEN) (hv : t.name ∈ VOID_ELEMENTS) :
    stepToken maxE content t s = s := by
  rcases t with ⟨ty, nm, ln, col⟩
  simp only at hty
  subst hty
  simp only at hv
  simp [stepToken, hv]

theorem stepToken_open_push (maxE : Nat) (content : String) (t : TagToken) (s : VState)
    (hty : t.type = TokType.OPEN) (hv : t.name ∉ VOID_ELEMENTS) :
    stepToken maxE content t s =
      { s with stack := { name := t.name, line := t.line, column := t.column } :: s.stack } := by
  rcases t with ⟨ty, nm, ln, col⟩
  simp only at hty
  subst hty
  simp only at hv
  simp [stepToken, hv]

theorem stepToken_close_void (maxE : Nat) (content : String) (t : TagToken) (s : VState)
    (hty : t.type = TokType.CLOSE) (hv : t.name ∈ VOID_ELEMENTS) :
    stepToken maxE content t s = s := by
  rcases t with ⟨ty, nm, ln, col⟩
  simp only at hty
  subst hty
  simp only at hv
  simp [stepToken, hv]

theorem stepToken_close_empty (maxE : Nat) (content : String) (t : TagToken) (s : VState)
    (hty : t.type = TokType.CLOSE) (hv : t.name ∉ VOID_ELEMENTS) (hs : s.stack = []) :
    stepToken maxE content t s =
      { s with errors := s.errors ++ [mkMissingOpenErr content s.nextId t],
               nextId := s.nextId + 1 } := by
  rcases t with ⟨ty, nm, ln, col⟩
  simp only at hty
  subst hty
  simp only at hv
  simp [stepToken, hv, hs]

theorem stepToken_close_match (maxE : Nat) (content : String) (t : TagToken) (s : VState)
    (top : StackEntry) (rest : List StackEntry)
    (hty : t.type = TokType.CLOSE) (hv : t.name ∉ VOID_ELEMENTS)
    (hs : s.stack = top :: rest) (hn : top.name = t.name) :
    stepToken maxE content t s = { s with stack := rest, matched := s.matched + 1 } := by
  rcases t with ⟨ty, nm, ln, col⟩
  simp only at hty
  subst hty
  simp only at hv hn
  simp [stepToken, hv, hs, hn]

theorem stepToken_close_mismatch (maxE : Nat) (content : String) (t : TagToken) (s : VState)
    (top : StackEntry) (rest stk2 : List StackEntry) (errs2 : List VError) (nid2 : Nat)
    (hty : t.type = TokType.CLOSE) (hv : t.name ∉ VOID_ELEMENTS)
    (hs : s.stack = top :: rest) (hn : ¬ top.name = t.name)
    (hr : recoverPop maxE content t (top :: rest)
        (s.errors ++ [mkMismatchErr content s.nextId t top]) (s.nextId + 1) =
        (stk2, errs2, nid2)) :
    stepToken maxE content t s = afterRecovery t.name s stk2 errs2 nid2 := by
  rcases t with ⟨ty, nm, ln, col⟩
  simp only at hty
  subst hty
  simp only at hv hn hr
  simp only [stepToken, hs, if_neg hv, if_neg hn]
  simp only [hr]
  rcases stk2 with _ | ⟨top2, rest2⟩ <;> rfl

theorem afterRecovery_errors (tname : String) (s : VState) (stk2 : List StackEntry)
    (errs2 : List VError) (nid2 : Nat) :
    (afterRecovery tname s stk2 errs2 nid2).errors = errs2 := by
  rcases stk2 with _ | ⟨top2, rest2⟩
  · rfl
  · by_cases h2 : top2.name = tname <;> simp [afterRecovery, h2]

theorem stepToken_mono (maxE : Nat) (content : String) (t : TagToken) (s : VState) :
    s.errors.length ≤ (stepToken maxE content t s).errors.length := by
  cases hty : t.type
  case OPEN =>
    by_cases hv : t.name ∈ VOID_ELEMENTS
    · rw [stepToken_open_void maxE content t s hty hv]
    · rw [stepToken_open_push maxE content t s hty hv]
  case CLOSE =>
    by_cases hv : t.name ∈ VOID_ELEMENTS
    · rw [stepToken_close_void maxE content t s hty hv]
    · rcases hs : s.stack with _ | ⟨top, rest⟩
      · rw [stepToken_close_empty maxE content t s hty hv hs]
        simp
      · by_cases hn : top.name = t.name
        · rw [stepToken_close_match maxE content t s top rest hty hv hs hn]
        · rcases hr : recoverPop maxE content t (top :: rest)
              (s.errors ++ [mkMismatchErr content s.nextId t top]) (s.nextId + 1)
              with ⟨stk2, errs2, nid2⟩
          rw [stepToken_close_mismatch maxE content t s top rest stk2 errs2 nid2 hty hv hs hn hr,
            afterRecovery_errors]
          have h1 := recoverPop_mono maxE content t (top :: rest)
            (s.errors ++ [mkMismatchErr content s.nextId t top]) (s.nextId + 1)
          rw [hr] at h1
          simp at h1
          omega

theorem stepToken_bound (maxE : Nat) (content : String) (t : TagToken) (s : VState)
    (h : s.errors.length < maxE) :
    (stepToken maxE content t s).errors.length ≤ maxE := by
  cases hty : t.type
  case OPEN =>
    by_cases hv : t.name ∈ VOID_ELEMENTS
    · rw [stepToken_open_void maxE content t s hty hv]; omega
    · rw [stepToken_open_push maxE content t s hty hv]; simpa using Nat.le_of_lt h
  case CLOSE =>
    by_cases hv : t.name ∈ VOID_ELEMENTS
    · rw [stepToken_close_void maxE content t s hty hv]; omega
    · rcases hs : s.stack with _ | ⟨top, rest⟩
      · rw [stepToken_close_empty maxE content t s hty hv hs]
        simp; omega
      · by_cases hn : top.name = t.name
        · rw [stepToken_close_match maxE content t s top rest hty hv hs hn]
          simpa using Nat.le_of_lt h
        · rcases hr : recoverPop maxE content t (top :: rest)
              (s.errors ++ [mkMismatchErr content s.nextId t top]) (s.nextId + 1)
              with ⟨stk2, errs2, nid2⟩
          rw [stepToken_close_mismatch maxE content t s top rest stk2 errs2 nid2 hty hv hs hn hr,
            afterRecovery_errors]
          have h1 := recoverPop_bound maxE content t (top :: rest)
            (s.errors ++ [mkMismatchErr content s.nextId t top]) (s.nextId + 1) (by simp; omega)
          rw [hr] at h1
          simpa using h1

theorem stepToken_measure (maxE : Nat) (content : String) (t : TagToken) (s : VState)
    (h : (stepToken maxE content t s).errors.length < maxE) :
    conserveMeasure (stepToken maxE content t s) =
      conserveMeasure s +
        (if t.type = TokType.OPEN ∧ t.name ∉ VOID_ELEMENTS then 1 else 0) := by
  cases hty : t.type
  case OPEN =>
    by_cases hv : t.name ∈ VOID_ELEMENTS
    · rw [stepToken_open_void maxE content t s hty hv,
        if_neg (fun hc => hc.2 hv)]
      simp
    · rw [stepToken_open_push maxE content t s hty hv, if_pos ⟨rfl, hv⟩]
      simp [conserveMeasure]
      omega
  case CLOSE =>
    rw [if_neg (fun hc => TokType.noConfusion hc.1), Nat.add_zero]
    by_cases hv : t.name ∈ VOID_ELEMENTS
    · rw [stepToken_close_void maxE content t s hty hv]
    · rcases hs : s.stack with _ | ⟨top, rest⟩
      · rw [stepToken_close_empty maxE content t s hty hv hs]
        simp [conserveMeasure, mccount_append, mccount, mkMissingOpenErr, hs]
      · by_cases hn : top.name = t.name
        · rw [stepToken_close_match maxE content t s top rest hty hv hs hn]
          simp [conserveMeasure, hs]
          omega
        · rcases hr : recoverPop maxE content t (top :: rest)
              (s.errors ++ [mkMismatchErr content s.nextId t top]) (s.nextId + 1)
              with ⟨stk2, errs2, nid2⟩
          have hstep := stepToken_close_mismatch maxE content t s top rest stk2 errs2 nid2
            hty hv hs hn hr
          rw [hstep] at h ⊢
          have herrs2 : errs2.length < maxE := by
            rw [afterRecovery_errors] at h; exact h
          have hchr := recoverPop_chr maxE content t (top :: rest)
            (s.errors ++ [mkMismatchErr content s.nextId t top]) (s.nextId + 1)
            (by rw [hr]; exact herrs2)
          rw [hr] at hchr
          have hstk2 : stk2 = unwindRest t (top :: rest) := by
            have := congrArg Prod.fst hchr; simpa using this
          have herrseq : errs2 =
              (s.errors ++ [mkMismatchErr content s.nextId t top]) ++
                recEmits content t (unwindPops t (top :: rest)) (s.nextId + 1) := by
            have := congrArg (fun p => p.2.1) hchr; simpa using this
          have hlen := unwind_length t (top :: rest)
          have hmcc : mccount errs2 =
              mccount s.errors + (unwindPops t (top :: rest)).length := by
            rw [herrseq, mccount_append, mccount_append, mccount_recEmits]
            simp [mccount, mkMismatchErr]
          rcases hstk : stk2 with _ | ⟨top2, rest2⟩
          · rw [hstk] at hstk2
            simp [afterRecovery, conserveMeasure, hmcc, hs]
            have : (unwindPops t (top :: rest)).length = rest.length + 1 := by
              rw [← hstk2] at hlen; simpa using hlen
            omega
          · have h2 : top2.name = t.name :=
              unwindRest_head t (top :: rest) top2 rest2 (by rw [← hstk2, hstk])
            rw [hstk] at hstk2
            have hlen2 : (unwindPops t (top :: rest)).length + (rest2.length + 1) =
                rest.length + 1 := by
              rw [← hstk2] at hlen; simpa using hlen
            simp [afterRecovery, h2, conserveMeasure, hmcc, hs]
            omega

theorem runTokens_mono (maxE : Nat) (content : String) (ts : List TagToken) (s : VState) :
    s.errors.length ≤ (runTokens maxE content ts s).errors.length := by
  induction ts generalizing s with
  | nil => simp [runTokens]
  | cons t rest ih =>
    by_cases hb : maxE ≤ s.errors.length
    · simp [runTokens, hb]
    · simp only [runTokens, if_neg hb]
      exact Nat.le_trans (stepToken_mono maxE content t s) (ih _)

theorem runTokens_bound (maxE : Nat) (content : String) (ts : List TagToken) (s : VState)
    (h : s.errors.length ≤ maxE) :
    (runTokens maxE content ts s).errors.length ≤ maxE := by
  induction ts generalizing s with
  | nil => simpa [runTokens]
  | cons t rest ih =>
    by_cases hb : maxE ≤ s.errors.length
    · simpa [runTokens, hb]
    · simp only [runTokens, if_neg hb]
      exact ih _ (stepToken_bound maxE content t s (by omega))

theorem runTokens_measure (maxE : Nat) (content : String) (ts : List TagToken) (s : VState)
    (h : (runTokens maxE content ts s).errors.length < maxE) :
    conserveMeasure (runTokens maxE content ts s) = conserveMeasure s + openCount ts := by
  induction ts generalizing s with
  | nil => simp [runTokens, openCount]
  | cons t rest ih =>
    by_cases hb : maxE ≤ s.errors.length
    · exfalso
      simp [runTokens, hb] at h
      omega
    · simp only [runTokens, if_neg hb] at h ⊢
      have hstep : (stepToken maxE content t s).errors.length < maxE :=
        Nat.lt_of_le_of_lt (runTokens_mono maxE content rest _) h
      rw [ih _ h, stepToken_measure maxE content t s hstep]
      simp only [openCount]
      omega

theorem drainAux_mono (maxE : Nat) (content : String) (stk : List StackEntry)
    (errs : List VError) (nid : Nat) :
    errs.length ≤ (drainAux maxE content stk errs nid).2.1.length := by
  induction stk generalizing errs nid with
  | nil => simp [drainAux]
  | cons top rest ih =>
    by_cases hc : errs.length < maxE
    · simp only [drainAux, if_pos hc]
      calc errs.length ≤ (errs ++ [mkMissingCloseEof content nid top]).length := by simp
        _ ≤ _ := ih _ _
    · simp [drainAux, hc]

theorem drainAux_bound (maxE : Nat) (content : String) (stk : List StackEntry)
    (errs : List VError) (nid : Nat) (h : errs.length ≤ maxE) :
    (drainAux maxE content stk errs nid).2.1.length ≤ maxE := by
  induction stk generalizing errs nid with
  | nil => simpa [drainAux]
  | cons top rest ih =>
    by_cases hc : errs.length < maxE
    · simp only [drainAux, if_pos hc]
      exact ih _ _ (by simp; omega)
    · simpa [drainAux, hc]

theorem drainAux_chr (maxE : Nat) (content : String) (stk : List StackEntry)
    (errs : List VError) (nid : Nat)
    (h : (drainAux maxE content stk errs nid).2.1.length < maxE) :
    drainAux maxE content stk errs nid =
      ([], errs ++ eofEmits content stk nid, nid + stk.length) := by
  induction stk generalizing errs nid with
  | nil => simp [drainAux, eofEmits]
  | cons top rest ih =>
    by_cases hc : errs.length < maxE
    · simp only [drainAux, if_pos hc] at h ⊢
      rw [ih _ _ h]
      simp [eofEmits]
      omega
    · exfalso
      simp only [drainAux, if_neg hc] at h
      exact hc h

/-- The conservation ledger of a full (uncapped) run: non-void OPEN
tokens pushed equal matched CLOSE pops plus MISSING_CLOSE errors
emitted. -/
theorem rawState_conservation (tokens : List TagToken) (opts : ValidateOptions)
    (h : (rawErrors tokens opts).length < opts.maxErrors.getD 500) :
    openCount tokens = (rawState tokens opts).matched + mccount (rawErrors tokens opts) := by
  have hre : rawErrors tokens opts =
      (drainAux (opts.maxErrors.getD 500) opts.content
        (runTokens (opts.maxErrors.getD 500) opts.content tokens initState).stack
        (runTokens (opts.maxErrors.getD 500) opts.content tokens initState).errors
        (runTokens (opts.maxErrors.getD 500) opts.content tokens initState).nextId).2.1 := rfl
  have hrm : (rawState tokens opts).matched =
      (runTokens (opts.maxErrors.getD 500) opts.content tokens initState).matched := rfl
  rw [hre] at h ⊢
  rw [hrm]
  set maxE := opts.maxErrors.getD 500
  set r := runTokens maxE opts.content tokens initState with hr
  have hrlen : r.errors.length < maxE :=
    Nat.lt_of_le_of_lt (drainAux_mono maxE opts.content r.stack r.errors r.nextId) h
  have hrmeas := runTokens_measure maxE opts.content tokens initState hrlen
  have hdc := drainAux_chr maxE opts.content r.stack r.errors r.nextId h
  have hderrs : (drainAux maxE opts.content r.stack r.errors r.nextId).2.1 =
      r.errors ++ eofEmits opts.content r.stack r.nextId := by rw [hdc]
  rw [hderrs, mccount_append, mccount_eofEmits]
  rw [← hr] at hrmeas
  have h0 : conserveMeasure initState = 0 := by simp [conserveMeasure, initState, mccount]
  rw [h0] at hrmeas
  simp only [conserveMeasure] at hrmeas
  omega

/-! ## Deduplication and sorting lemmas -/

theorem dedupAux_length (seen : List (ErrorType × String × Nat)) (l : List VError) :
    (dedupAux seen l).length ≤ l.length := by
  induction l generalizing seen with
  | nil => simp [dedupAux]
  | cons e rest ih =>
    by_cases hk : errKey e ∈ seen
    · simp only [dedupAux, if_pos hk]
      exact Nat.le_trans (ih seen) (by simp)
    · simp only [dedupAux, if_neg hk, List.length_cons]
      exact Nat.succ_le_succ (ih _)

theorem dedupAux_mem (seen : List (ErrorType × String × Nat)) (l : List VError) (e : VError) :
    e ∈ dedupAux seen l → e ∈ l := by
  induction l generalizing seen with
  | nil => intro h; simp [dedupAux] at h
  | cons x rest ih =>
    intro h
    by_cases hk : errKey x ∈ seen
    · simp only [dedupAux, if_pos hk] at h
      exact List.mem_cons_of_mem x (ih seen h)
    · simp only [dedupAux, if_neg hk] at h
      rcases List.mem_cons.mp h with h | h
      · exact h ▸ List.mem_cons_self x rest
      · exact List.mem_cons_of_mem x (ih _ h)

theorem dedupAux_key_notin (seen : List (ErrorType × String × Nat)) (l : List VError)
    (e : VError) : e ∈ dedupAux seen l → errKey e ∉ seen := by
  induction l generalizing seen with
  | nil => intro h; simp [dedupAux] at h
  | cons x rest ih =>
    intro h
    by_cases hk : errKey x ∈ seen
    · simp only [dedupAux, if_pos hk] at h
      exact ih seen h
    · simp only [dedupAux, if_neg hk] at h
      rcases List.mem_cons.mp h with h | h
      · exact h ▸ hk
      · intro hmem
        exact ih _ h (List.mem_cons_of_mem _ hmem)

theorem dedupAux_pairwise (seen : List (ErrorType × String × Nat)) (l : List VError) :
    List.Pairwise (fun a b => errKey a ≠ errKey b) (dedupAux seen l) := by
  induction l generalizing seen with
  | nil => simp [dedupAux]
  | cons x rest ih =>
    by_cases hk : errKey x ∈ seen
    · simp only [dedupAux, if_pos hk]
      exact ih seen
    · simp only [dedupAux, if_neg hk]
      refine List.Pairwise.cons ?_ (ih _)
      intro b hb hkey
      exact dedupAux_key_notin _ _ b hb (by rw [← hkey]; exact List.mem_cons_self _ _)

theorem dedupAux_find (seen : List (ErrorType × String × Nat)) (l : List VError) (e : VError) :
    e ∈ dedupAux seen l →
      l.find? (fun x => decide (errKey x = errKey e)) = some e := by
  induction l generalizing seen with
  | nil => intro h; simp [dedupAux] at h
  | cons x rest ih =>
    intro h
    by_cases hk : errKey x ∈ seen
    · simp only [dedupAux, if_pos hk] at h
      have hne : ¬ errKey x = errKey e := by
        intro hxe
        exact dedupAux_key_notin seen rest e h (hxe ▸ hk)
      rw [List.find?_cons_of_neg _ (by simpa using hne)]
      exact ih seen h
    · simp only [dedupAux, if_neg hk] at h
      rcases List.mem_cons.mp h with h | h
      · subst h
        rw [List.find?_cons_of_pos _ (by simp)]
      · have hne : ¬ errKey x = errKey e := by
          intro hxe
          apply dedupAux_key_notin _ rest e h
          rw [hxe]
          exact List.mem_cons_self _ _
        rw [List.find?_cons_of_neg _ (by simpa using hne)]
        exact ih _ h

theorem sortErrors_perm (l : List VError) : (sortErrors l).Perm l :=
  List.perm_insertionSort errLe l

theorem sortErrors_pairwise (l : List VError) : List.Pairwise errLe (sortErrors l) :=
  List.sorted_insertionSort errLe l

theorem ctxOk_missingOpen (content : String) (nid : Nat) (t : TagToken) :
    ctxOk content (mkMissingOpenErr content nid t) := rfl

theorem ctxOk_mismatch (content : String) (nid : Nat) (t : TagToken) (top : StackEntry) :
    ctxOk content (mkMismatchErr content nid t top) := rfl

theorem ctxOk_missingCloseRec (content : String) (nid : Nat) (t : TagToken) (u : StackEntry) :
    ctxOk content (mkMissingCloseRec content nid t u) := rfl

theorem ctxOk_missingCloseEof (content : String) (nid : Nat) (u : StackEntry) :
    ctxOk content (mkMissingCloseEof content nid u) := rfl

theorem recoverPop_ctx (maxE : Nat) (content : String) (t : TagToken)
    (entries : List StackEntry) (errs : List VError) (nid : Nat)
    (hall : ∀ e ∈ errs, ctxOk content e) :
    ∀ e ∈ (recoverPop maxE content t entries errs nid).2.1, ctxOk content e := by
  induction entries generalizing errs nid with
  | nil => simpa [recoverPop]
  | cons top rest ih =>
    by_cases hn : top.name = t.name
    · simpa [recoverPop, hn]
    · by_cases hc : errs.length < maxE
      · simp only [recoverPop, if_pos hc, if_neg hn]
        refine ih _ _ ?_
        intro e he
        rcases List.mem_append.mp he with he | he
        · exact hall e he
        · simp at he
          exact he ▸ ctxOk_missingCloseRec content nid t top
      · simp only [recoverPop, if_neg hc, if_neg hn]
        exact ih _ _ hall

theorem stepToken_ctx (maxE : Nat) (content : String) (t : TagToken) (s : VState)
    (hall : ∀ e ∈ s.errors, ctxOk content e) :
    ∀ e ∈ (stepToken maxE content t s).errors, ctxOk content e := by
  cases hty : t.type
  case OPEN =>
    by_cases hv : t.name ∈ VOID_ELEMENTS
    · rw [stepToken_open_void maxE content t s hty hv]; exact hall
    · rw [stepToken_open_push maxE content t s hty hv]; exact hall
  case CLOSE =>
    by_cases hv : t.name ∈ VOID_ELEMENTS
    · rw [stepToken_close_void maxE content t s hty hv]; exact hall
    · rcases hs : s.stack with _ | ⟨top, rest⟩
      · rw [stepToken_close_empty maxE content t s hty hv hs]
        intro e he
        simp at he
        rcases he with he | he
        · exact hall e he
        · exact he ▸ ctxOk_missingOpen content s.nextId t
      · by_cases hn : top.name = t.name
        · rw [stepToken_close_match maxE content t s top rest hty hv hs hn]; exact hall
        · rcases hr : recoverPop maxE content t (top :: rest)
              (s.errors ++ [mkMismatchErr content s.nextId t top]) (s.nextId + 1)
              with ⟨stk2, errs2, nid2⟩
          rw [stepToken_close_mismatch maxE content t s top rest stk2 errs2 nid2 hty hv hs hn hr,
            afterRecovery_errors]
          have := recoverPop_ctx maxE content t (top :: rest)
            (s.errors ++ [mkMismatchErr content s.nextId t top]) (s.nextId + 1) ?_
          · rw [hr] at this
            exact this
          · intro e he
            rcases List.mem_append.mp he with he | he
            · exact hall e he
            · simp at he
              exact he ▸ ctxOk_mismatch content s.nextId t top

theorem runTokens_ctx (maxE : Nat) (content : String) (ts : List TagToken) (s : VState)
    (hall : ∀ e ∈ s.errors, ctxOk content e) :
    ∀ e ∈ (runTokens maxE content ts s).errors, ctxOk content e := by
  induction ts generalizing s with
  | nil => simpa [runTokens]
  | cons t rest ih =>
    by_cases hb : maxE ≤ s.errors.length
    · simpa [runTokens, hb]
    · simp only [runTokens, if_neg hb]
      exact ih _ (stepToken_ctx maxE content t s hall)

theorem drainAux_ctx (maxE : Nat) (content : String) (stk : List StackEntry)
    (errs : List VError) (nid : Nat)
    (hall : ∀ e ∈ errs, ctxOk content e) :
    ∀ e ∈ (drainAux maxE content stk errs nid).2.1, ctxOk content e := by
  induction stk generalizing errs nid with
  | nil => simpa [drainAux]
  | cons top rest ih =>
    by_cases hc : errs.length < maxE
    · simp only [drainAux, if_pos hc]
      refine ih _ _ ?_
      intro e he
      rcases List.mem_append.mp he with he | he
      · exact hall e he
      · simp at he
        exact he ▸ ctxOk_missingCloseEof content nid top
    · simpa [drainAux, hc]

theorem validateTokens_ctx (tokens : List TagToken) (opts : ValidateOptions) :
    ∀ e ∈ validateTokens tokens opts, ctxOk opts.content e := by
  intro e he
  have hmem1 : e ∈ dedupErrors (rawErrors tokens opts) :=
    (sortErrors_perm _).mem_iff.mp he
  have hmem2 : e ∈ rawErrors tokens opts := dedupAux_mem [] _ e hmem1
  have hraw : ∀ x ∈ rawErrors tokens opts, ctxOk opts.content x := by
    intro x hx
    have hrun : ∀ y ∈ (runTokens (opts.maxErrors.getD 500) opts.content tokens initState).errors,
        ctxOk opts.content y :=
      runTokens_ctx _ _ _ _ (by simp [initState])
    exact drainAux_ctx _ _ _ _ _ hrun x hx
  exact hraw e hmem2

/-! ## Lemmas about the closing-tag pattern scan -/

theorem matchCloseAt_some (cs : List Char) (i : Nat) (nm : String) (len : Nat)
    (h : matchCloseAt cs i = some (nm, len)) :
    ∃ c nmL ws tail,
      cs.drop i = '<' :: '/' :: c :: (nmL ++ ws ++ '>' :: tail) ∧
      c.isAlpha = true ∧
      (∀ x ∈ nmL, isNameChar x = true) ∧
      (∀ x ∈ ws, isJsWhitespace x = true) ∧
      nm = String.mk (c :: nmL) ∧
      len = nmL.length + ws.length + 4 := by
  unfold matchCloseAt at h
  rcases hd : cs.drop i with _ | ⟨a, _ | ⟨b, _ | ⟨c, rest⟩⟩⟩ <;> rw [hd] at h <;>
    simp only [] at h
  pick_goal 4
  · split_ifs at h with hcond
    obtain ⟨ha, hb, hc⟩ := hcond
    subst ha
    subst hb
    rcases hw : (rest.dropWhile isNameChar).dropWhile isJsWhitespace with _ | ⟨g, tail⟩ <;>
      rw [hw] at h
    · simp at h
    · by_cases hg : g = '>'
      · subst hg
        simp only [Option.some.injEq, Prod.mk.injEq] at h
        refine ⟨c, rest.takeWhile isNameChar,
          (rest.dropWhile isNameChar).takeWhile isJsWhitespace, tail, ?_, hc, ?_, ?_, ?_, ?_⟩
        · have h1 : rest.takeWhile isNameChar ++ rest.dropWhile isNameChar = rest :=
            List.takeWhile_append_dropWhile _ _
        
          have h2 : (rest.dropWhile isNameChar).takeWhile isJsWhitespace ++
              ('>' :: tail) = rest.dropWhile isNameChar := by
            rw [← hw]
            exact List.takeWhile_append_dropWhile _ _
          simp only [List.cons.injEq, true_and]
          rw [List.append_assoc, h2, h1]
        · intro x hx
          exact List.mem_takeWhile_imp hx
        · intro x hx
          exact List.mem_takeWhile_imp hx
        · exact h.1.symm
        · omega
      · exfalso
        rcases hgg : g
        simp only [hgg] at h hg
        split at h
        · rename_i heq
          injection heq with heq1
          exact hg (by rw [heq1])
        · exact Option.noConfusion h
  all_goals exact Option.noConfusion h

theorem matchCloseAt_len_pos (cs : List Char) (i : Nat) (nm : String) (len : Nat)
    (h : matchCloseAt cs i = some (nm, len)) : 1 ≤ len := by
  obtain ⟨c, nmL, ws, tail, -, -, -, -, -, hlen⟩ := matchCloseAt_some cs i nm len h
  omega

theorem matchCloseAt_lt_length (cs : List Char) (i : Nat) (nm : String) (len : Nat)
    (h : matchCloseAt cs i = some (nm, len)) : i < cs.length := by
  obtain ⟨c, nmL, ws, tail, hdrop, -, -, -, -, -⟩ := matchCloseAt_some cs i nm len h
  by_contra hge
  rw [List.drop_eq_nil_iff.mpr (by omega)] at hdrop
  exact List.noConfusion hdrop

theorem matchCloseAt_head (cs : List Char) (j : Nat) (nm : String) (len : Nat)
    (h : matchCloseAt cs j = some (nm, len)) : (cs.drop j).head? = some '<' := by
  obtain ⟨c, nmL, ws, tail, hdrop, -, -, -, -, -⟩ := matchCloseAt_some cs j nm len h
  rw [hdrop]
  rfl

theorem matchCloseAt_none_of_head (cs : List Char) (j : Nat)
    (h : ∀ x, (cs.drop j).head? = some x → ¬ x = '<') :
    matchCloseAt cs j = none := by
  rcases hm : matchCloseAt cs j with _ | ⟨nm2, len2⟩
  · rfl
  · exact absurd rfl (h '<' (matchCloseAt_head cs j nm2 len2 hm))

theorem matchCloseAt_no_overlap (cs : List Char) (i : Nat) (nm : String) (len : Nat)
    (h : matchCloseAt cs i = some (nm, len)) (j : Nat) (hij : i < j) (hjl : j < i + len) :
    matchCloseAt cs j = none := by
  obtain ⟨c, nmL, ws, tail, hdrop, hc, hnm, hws, -, hlen⟩ := matchCloseAt_some cs i nm len h
  have hfront : cs.drop i = ('<' :: '/' :: c :: (nmL ++ ws ++ ['>'])) ++ tail := by
    rw [hdrop]; simp
  apply matchCloseAt_none_of_head
  intro x hx hlt
  have hdj : cs.drop j = (cs.drop i).drop (j - i) := by
    rw [List.drop_drop]
    congr 1
    omega
  rw [hdj, hfront, List.head?_drop, List.getElem?_append] at hx
  have hfl : ('<' :: '/' :: c :: (nmL ++ ws ++ ['>'])).length = len := by
    simp
    omega
  rw [if_pos (by rw [hfl]; omega)] at hx
  have hmem0 : x ∈ ('<' :: '/' :: c :: (nmL ++ ws ++ ['>'])).drop 1 := by
    apply List.getElem?_mem
    rw [List.getElem?_drop]
    rw [show 1 + (j - i - 1) = j - i by omega]
    exact hx
  simp only [List.drop_succ_cons, List.drop_zero] at hmem0
  subst hlt
  simp only [List.mem_cons, List.mem_append, List.mem_singleton] at hmem0
  rcases hmem0 with h1 | h1 | ((h1 | h1) | h1)
  · exact absurd h1 (by decide)
  · rw [← h1] at hc
    exact absurd hc (by decide)
  · exact absurd (hnm _ h1) (by decide)
  · exact absurd (hws _ h1) (by decide)
  · exact absurd h1 (by decide)

theorem scanCloseAux_sound (cs : List Char) (fuel : Nat) :
    ∀ (i off : Nat) (nm : String), (off, nm) ∈ scanCloseAux cs fuel i →
      i ≤ off ∧ ∃ len, matchCloseAt cs off = some (nm, len) := by
  induction fuel with
  | zero =>
    intro i off nm h
    simp [scanCloseAux] at h
  | succ fuel ih =>
    intro i off nm h
    by_cases hi : i < cs.length
    · simp only [scanCloseAux, if_pos hi] at h
      rcases hm : matchCloseAt cs i with _ | ⟨nm2, len2⟩
      · rw [hm] at h
        obtain ⟨h1, h2⟩ := ih (i + 1) off nm h
        exact ⟨by omega, h2⟩
      · rw [hm] at h
        rcases List.mem_cons.mp h with h | h
        · obtain ⟨h1, h2⟩ := Prod.mk.injEq .. ▸ h
          exact ⟨by omega, len2, by rw [h1, h2]; exact hm⟩
        · obtain ⟨h1, h2⟩ := ih (i + len2) off nm h
          exact ⟨by omega, h2⟩
    · simp [scanCloseAux, hi] at h

theorem scanCloseAux_complete (cs : List Char) (fuel : Nat) :
    ∀ (i off : Nat) (nm : String) (len : Nat), cs.length ≤ i + fuel → i ≤ off →
      matchCloseAt cs off = some (nm, len) → (off, nm) ∈ scanCloseAux cs fuel i := by
  induction fuel with
  | zero =>
    intro i off nm len hfuel hio hm
    have := matchCloseAt_lt_length cs off nm len hm
    omega
  | succ fuel ih =>
    intro i off nm len hfuel hio hm
    have hoff : off < cs.length := matchCloseAt_lt_length cs off nm len hm
    have hi : i < cs.length := by omega
    simp only [scanCloseAux, if_pos hi]
    rcases hm2 : matchCloseAt cs i with _ | ⟨nm2, len2⟩
    · have hne : ¬ i = off := by
        intro he
        rw [he, hm] at hm2
        exact Option.noConfusion hm2
      exact ih (i + 1) off nm len (by omega) (by omega) hm
    · by_cases heq : i = off
      · subst heq
        rw [hm] at hm2
        obtain ⟨h1, h2⟩ := Prod.mk.injEq .. ▸ (Option.some.inj hm2)
        rw [h1]
        exact List.mem_cons_self _ _
      · have hlt : i < off := by omega
        have hpos : 1 ≤ len2 := matchCloseAt_len_pos cs i nm2 len2 hm2
        have hjump : i + len2 ≤ off := by
          by_contra hcon
          have := matchCloseAt_no_overlap cs i nm2 len2 hm2 off hlt (by omega)
          rw [this] at hm
          exact Option.noConfusion hm
        exact List.mem_cons_of_mem _ (ih (i + len2) off nm len (by omega) hjump hm)

theorem scanMatches_sound (content : String) (off : Nat) (nm : String)
    (h : (off, nm) ∈ scanMatches content) :
    ∃ len, matchCloseAt content.data off = some (nm, len) :=
  (scanCloseAux_sound content.data content.data.length 0 off nm h).2

theorem scanMatches_complete (content : String) (off : Nat) (nm : String) (len : Nat)
    (h : matchCloseAt content.data off = some (nm, len)) :
    (off, nm) ∈ scanMatches content :=
  scanCloseAux_complete content.data content.data.length 0 off nm len (by omega) (by omega) h

/-! ## Exclusion-range lookup -/

theorem isExcluded_iff_of_sorted (off : Nat) :
    ∀ (rs : List (Nat × Nat)), List.Pairwise rangeLe rs →
      (isExcluded rs off = true ↔ ∃ r ∈ rs, r.1 ≤ off ∧ off ≤ r.2) := by
  intro rs
  induction rs with
  | nil =>
    intro hp
    simp [isExcluded]
  | cons hd tl ih =>
    intro hp
    rcases hd with ⟨s, e⟩
    obtain ⟨hhead, htl⟩ := List.pairwise_cons.mp hp
    by_cases h1 : s > off
    · simp only [isExcluded, if_pos h1]
      constructor
      · intro hfalse
        exact Bool.noConfusion hfalse
      · rintro ⟨r, hr, hr1, hr2⟩
        rcases List.mem_cons.mp hr with hr | hr
        · rw [hr] at hr1
          simp at hr1
          omega
        · have := hhead r hr
          simp only [rangeLe] at this
          omega
    · by_cases h2 : s ≤ off ∧ off ≤ e
      · simp only [isExcluded, if_neg h1, if_pos h2]
        simp only [true_iff]
        exact ⟨(s, e), List.mem_cons_self _ _, h2⟩
      · simp only [isExcluded, if_neg h1, if_neg h2]
        rw [ih htl]
        constructor
        · rintro ⟨r, hr, hcond⟩
          exact ⟨r, List.mem_cons_of_mem _ hr, hcond⟩
        · rintro ⟨r, hr, hcond⟩
          rcases List.mem_cons.mp hr with hr | hr
          · exfalso
            rw [hr] at hcond
            exact h2 hcond
          · exact ⟨r, hr, hcond⟩

theorem sortRanges_pairwise (rs : List (Nat × Nat)) :
    List.Pairwise rangeLe (sortRanges rs) :=
  List.sorted_insertionSort rangeLe rs

theorem sortRanges_perm (rs : List (Nat × Nat)) : (sortRanges rs).Perm rs :=
  List.perm_insertionSort rangeLe rs

/-- The isExcluded lookup over the sorted ranges decides exactly
membership of the offset in some recorded range. -/
theorem isExcluded_sortRanges (rs : List (Nat × Nat)) (off : Nat) :
    isExcluded (sortRanges rs) off = true ↔ ∃ r ∈ rs, r.1 ≤ off ∧ off ≤ r.2 := by
  rw [isExcluded_iff_of_sorted off (sortRanges rs) (sortRanges_pairwise rs)]
  constructor
  · rintro ⟨r, hr, hc⟩
    exact ⟨r, (sortRanges_perm rs).mem_iff.mp hr, hc⟩
  · rintro ⟨r, hr, hc⟩
    exact ⟨r, (sortRanges_perm rs).mem_iff.mpr hr, hc⟩

/-! ## Attribute-value search -/

theorem strIndexOfAux_bound (cs val : List Char) :
    ∀ (fuel i idx : Nat), strIndexOfAux cs val fuel i = some idx →
      idx + val.length ≤ cs.length := by
  intro fuel
  induction fuel with
  | zero =>
    intro i idx h
    simp [strIndexOfAux] at h
  | succ fuel ih =>
    intro i idx h
    by_cases hle : i + val.length ≤ cs.length
    · simp only [strIndexOfAux, if_pos hle] at h
      by_cases hpre : val.isPrefixOf (cs.drop i) = true
      · rw [if_pos hpre] at h
        obtain rfl := Option.some.inj h
        exact hle
      · rw [if_neg hpre] at h
        exact ih _ _ h
    · simp only [strIndexOfAux, if_neg hle] at h
      exact Option.noConfusion h

theorem strIndexOf_bound (cs val : List Char) (start idx : Nat)
    (h : strIndexOf cs val start = some idx) : idx + val.length ≤ cs.length :=
  strIndexOfAux_bound cs val (cs.length + 1) start idx h

/-! ## Claim theorems -/

/-- C5: validateTokens returns at most maxErrors errors (500 when the
option is omitted); once the error count has reached the cap, the token
loop emits nothing further (it breaks immediately), yet always
terminates. -/
theorem spec_c5_error_cap :
    (∀ (tokens : List TagToken) (opts : ValidateOptions),
      (validateTokens tokens opts).length ≤ opts.maxErrors.getD 500) ∧
    (∀ (maxE : Nat) (content : String) (ts : List TagToken) (s : VState),
      maxE ≤ s.errors.length → runTokens maxE content ts s = s) := by
  constructor
  · intro tokens opts
    have hre : rawErrors tokens opts =
        (drainAux (opts.maxErrors.getD 500) opts.content
          (runTokens (opts.maxErrors.getD 500) opts.content tokens initState).stack
          (runTokens (opts.maxErrors.getD 500) opts.content tokens initState).errors
          (runTokens (opts.maxErrors.getD 500) opts.content tokens initState).nextId).2.1 := rfl
    have hr := runTokens_bound (opts.maxErrors.getD 500) opts.content tokens initState
      (by simp [initState])
    have hd := drainAux_bound (opts.maxErrors.getD 500) opts.content
      (runTokens (opts.maxErrors.getD 500) opts.content tokens initState).stack
      (runTokens (opts.maxErrors.getD 500) opts.content tokens initState).errors
      (runTokens (opts.maxErrors.getD 500) opts.content tokens initState).nextId hr
    calc (validateTokens tokens opts).length
        = (dedupErrors (rawErrors tokens opts)).length := (sortErrors_perm _).length_eq
      _ ≤ (rawErrors tokens opts).length := dedupAux_length _ _
      _ ≤ opts.maxErrors.getD 500 := by rw [hre]; exact hd
  · intro maxE content ts s h
    cases ts with
    | nil => rfl
    | cons t rest => simp [runTokens, h]

/-- C5 witness: with a cap of zero and one pending token the loop
returns its state unchanged. -/
theorem spec_c5_witness :
    runTokens 0 "" [⟨TokType.CLOSE, "div", 1, 1⟩] initState = initState :=
  spec_c5_error_cap.2 0 "" [⟨TokType.CLOSE, "div", 1, 1⟩] initState (by decide)

/-- C7: no two returned errors share the (type, tag, line) key, and each
returned error is the first-emitted error bearing its key. -/
theorem spec_c7_dedup :
    ∀ (tokens : List TagToken) (opts : ValidateOptions),
      List.Pairwise (fun a b => errKey a ≠ errKey b) (validateTokens tokens opts) ∧
      ∀ e ∈ validateTokens tokens opts,
        (rawErrors tokens opts).find? (fun x => decide (errKey x = errKey e)) = some e := by
  intro tokens opts
  constructor
  · exact (List.Perm.pairwise_iff (fun hxy hyx => hxy hyx.symm)
      (sortErrors_perm (dedupErrors (rawErrors tokens opts)))).mpr
      (dedupAux_pairwise [] (rawErrors tokens opts))
  · intro e he
    exact dedupAux_find [] _ e
      ((sortErrors_perm (dedupErrors (rawErrors tokens opts))).mem_iff.mp he)

/-- C7 witness: the single error of an orphaned close is its own first
occurrence in the raw list. -/
theorem spec_c7_witness :
    (rawErrors c7wToks c7wOpts).find? (fun x => decide (errKey x = errKey c7wErr)) =
      some c7wErr :=
  (spec_c7_dedup c7wToks c7wOpts).2 c7wErr (by decide)

/-- C8: the returned list is sorted by line, then column. -/
theorem spec_c8_sorted :
    ∀ (tokens : List TagToken) (opts : ValidateOptions),
      List.Pairwise
        (fun a b : VError => a.line < b.line ∨ (a.line = b.line ∧ a.column ≤ b.column))
        (validateTokens tokens opts) := by
  intro tokens opts
  exact sortErrors_pairwise (dedupErrors (rawErrors tokens opts))

/-- C1 (amended): provided the error cap is never reached, the number of
non-void OPEN tokens pushed equals the number of CLOSE tokens that
popped a matching entry plus the number of MISSING_CLOSE errors emitted
(during recovery or at end of input); and, unconditionally, every
non-void CLOSE token the loop body processes either pops the matching
stack top, or appends a MISSING_OPEN, or appends a MISMATCH followed by
its recovery output - none is silently dropped. -/
theorem spec_c1_conservation :
    (∀ (tokens : List TagToken) (opts : ValidateOptions),
      (rawErrors tokens opts).length < opts.maxErrors.getD 500 →
      openCount tokens = (rawState tokens opts).matched + mccount (rawErrors tokens opts)) ∧
    (∀ (maxE : Nat) (content : String) (t : TagToken) (s : VState),
      t.type = TokType.CLOSE → t.name ∉ VOID_ELEMENTS →
      ((∃ top rest, s.stack = top :: rest ∧ top.name = t.name ∧
          stepToken maxE content t s = { s with stack := rest, matched := s.matched + 1 }) ∨
       (s.stack = [] ∧ (stepToken maxE content t s).errors =
          s.errors ++ [mkMissingOpenErr content s.nextId t]) ∨
       (∃ top rest, s.stack = top :: rest ∧ ¬ top.name = t.name ∧
          ∃ tailErrs, (stepToken maxE content t s).errors =
            s.errors ++ mkMismatchErr content s.nextId t top :: tailErrs))) := by
  constructor
  · exact rawState_conservation
  · intro maxE content t s hty hv
    rcases hs : s.stack with _ | ⟨top, rest⟩
    · right; left
      refine ⟨rfl, ?_⟩
      rw [stepToken_close_empty maxE content t s hty hv hs]
    · by_cases hn : top.name = t.name
      · left
        exact ⟨top, rest, rfl, hn, stepToken_close_match maxE content t s top rest hty hv hs hn⟩
      · right; right
        refine ⟨top, rest, rfl, hn, ?_⟩
        rcases hr : recoverPop maxE content t (top :: rest)
            (s.errors ++ [mkMismatchErr content s.nextId t top]) (s.nextId + 1)
            with ⟨stk2, errs2, nid2⟩
        have hpre := recoverPop_prefix maxE content t (top :: rest)
          (s.errors ++ [mkMismatchErr content s.nextId t top]) (s.nextId + 1)
        rw [hr] at hpre
        obtain ⟨tailErrs, htail⟩ := hpre
        refine ⟨tailErrs, ?_⟩
        rw [stepToken_close_mismatch maxE content t s top rest stk2 errs2 nid2 hty hv hs hn hr,
          afterRecovery_errors]
        simp at htail
        rw [htail]

/-- C1 witness: a clean open/close pair under the default cap. -/
theorem spec_c1_witness :
    openCount c1wToks = (rawState c1wToks c1wOpts).matched + mccount (rawErrors c1wToks c1wOpts) :=
  spec_c1_conservation.1 c1wToks c1wOpts (by decide)

/-- C1 counterexample: with maxErrors = 1 and two unclosed OPEN tokens,
only one MISSING_CLOSE is reported, so pushes (2) exceed matched pops (0)
plus MISSING_CLOSE errors (1) - the stated invariant fails once the cap
truncates reporting. -/
theorem spec_c1_counterexample :
    ¬ (openCount c1cexToks =
        (rawState c1cexToks c1cexOpts).matched + mccount (rawErrors c1cexToks c1cexOpts)) := by
  decide

/-- C3 (amended): on a non-void CLOSE token whose name differs from the
stack top, the loop body emits exactly one MISMATCH (tag = token name,
expected = top name, token position, relatedLine = top line), pops
entries while the top differs, emits one MISSING_CLOSE per popped entry
at that entry's own position with relatedLine = the token's line -
provided the cap is not reached during the recovery - and silently pops
a matching entry if recovery stops on one.  The token stream of the
div/span scenario yields a MISMATCH with tag div, expected span, plus a
MISSING_CLOSE for span. -/
theorem spec_c3_mismatch_recovery :
    (∀ (maxE : Nat) (content : String) (t : TagToken) (s : VState) (top : StackEntry)
        (rest : List StackEntry),
      t.type = TokType.CLOSE → t.name ∉ VOID_ELEMENTS →
      s.stack = top :: rest → ¬ top.name = t.name →
      s.errors.length + (unwindPops t s.stack).length < maxE →
      stepToken maxE content t s =
        { stack := (unwindRest t s.stack).drop 1,
          errors := s.errors ++ mkMismatchErr content s.nextId t top ::
            recEmits content t (unwindPops t s.stack) (s.nextId + 1),
          nextId := s.nextId + 1 + (unwindPops t s.stack).length,
          matched := s.matched + (if unwindRest t s.stack = [] then 0 else 1) }) ∧
    (∃ e ∈ validateTokens c3toks c3opts,
        e.type = ErrorType.MISMATCH ∧ e.tag = "div" ∧ e.expected = some "span") ∧
    (∃ e ∈ validateTokens c3toks c3opts,
        e.type = ErrorType.MISSING_CLOSE ∧ e.tag = "span") := by
  refine ⟨?_, by decide, by decide⟩
  intro maxE content t s top rest hty hv hs hn hcap
  rw [hs] at hcap ⊢
  have hk : (unwindPops t (top :: rest)).length = (unwindPops t rest).length + 1 := by
    simp [unwindPops, hn]
  have hhr := recoverPop_headroom maxE content t (top :: rest)
    (s.errors ++ [mkMismatchErr content s.nextId t top]) (s.nextId + 1)
    (by simp; omega)
  rw [stepToken_close_mismatch maxE content t s top rest _ _ _ hty hv hs hn hhr]
  rcases hu : unwindRest t (top :: rest) with _ | ⟨top2, rest2⟩
  · simp [afterRecovery, hu, recEmits]
  · have h2 : top2.name = t.name := unwindRest_head t (top :: rest) top2 rest2 hu
    simp [afterRecovery, hu, h2, recEmits]

/-- C3 witness: the general recovery equation instantiated at the state
just before the CLOSE div of the div/span scenario. -/
theorem spec_c3_witness :
    stepToken 500 c3content c3wTok c3wState =
      { stack := (unwindRest c3wTok c3wState.stack).drop 1,
        errors := c3wState.errors ++ mkMismatchErr c3content c3wState.nextId c3wTok ⟨"span", 1, 6⟩ ::
          recEmits c3content c3wTok (unwindPops c3wTok c3wState.stack) (c3wState.nextId + 1),
        nextId := c3wState.nextId + 1 + (unwindPops c3wTok c3wState.stack).length,
        matched := c3wState.matched + (if unwindRest c3wTok c3wState.stack = [] then 0 else 1) } :=
  spec_c3_mismatch_recovery.1 500 c3content c3wTok c3wState ⟨"span", 1, 6⟩ [⟨"div", 1, 1⟩]
    rfl (by decide) rfl (by decide) (by decide)

/-- C3 counterexample: with maxErrors = 1 the MISMATCH itself reaches
the cap; the recovery still pops both entries (the final stack is empty)
but reports no MISSING_CLOSE at all, against the claimed one per popped
entry. -/
theorem spec_c3_counterexample :
    (rawErrors c3cexToks c3cexOpts).map (fun e => e.type) = [ErrorType.MISMATCH] ∧
    (rawState c3cexToks c3cexOpts).stack = [] ∧
    mccount (rawErrors c3cexToks c3cexOpts) = 0 := by
  decide

/-- C9: a non-void CLOSE token processed on an empty stack appends
exactly one MISSING_OPEN error carrying the token's name and position
and leaves the stack untouched; the token stream of the double-close
scenario yields exactly one error, a MISSING_OPEN for div. -/
theorem spec_c9_missing_open_frame :
    (∀ (maxE : Nat) (content : String) (t : TagToken) (s : VState),
      t.type = TokType.CLOSE → t.name ∉ VOID_ELEMENTS → s.stack = [] →
      stepToken maxE content t s =
        { s with errors := s.errors ++ [mkMissingOpenErr content s.nextId t],
                 nextId := s.nextId + 1 }) ∧
    (validateTokens c9toks c9opts).map (fun e => (e.type, e.tag)) =
      [(ErrorType.MISSING_OPEN, "div")] :=
  ⟨fun maxE content t s hty hv hs => stepToken_close_empty maxE content t s hty hv hs,
   by decide⟩

/-- C9 witness: the frame rule instantiated on the empty initial state. -/
theorem spec_c9_witness :
    stepToken 500 "" ⟨TokType.CLOSE, "div", 2, 3⟩ initState =
      { initState with
          errors := initState.errors ++ [mkMissingOpenErr "" initState.nextId ⟨TokType.CLOSE, "div", 2, 3⟩],
          nextId := initState.nextId + 1 } :=
  spec_c9_missing_open_frame.1 500 "" ⟨TokType.CLOSE, "div", 2, 3⟩ initState rfl (by decide) rfl

/-- C4 (amended): the unclosed-tags scenario yields exactly two
MISSING_CLOSE errors, each at its tag's own opening position; the unwind
emits them span-first (last-opened-first), but the returned list is
sorted by (line, column), so it lists div (column 1) before span
(column 6). -/
theorem spec_c4_unwind_order :
    (validateTokens c4toks c4opts).map (fun e => (e.type, e.tag, e.line, e.column)) =
      [(ErrorType.MISSING_CLOSE, "div", 1, 1), (ErrorType.MISSING_CLOSE, "span", 1, 6)] ∧
    (rawErrors c4toks c4opts).map (fun e => e.tag) = ["span", "div"] := by
  decide

/-- C4 counterexample: the returned list is not span-then-div - the
position sort places div (column 1) first. -/
theorem spec_c4_counterexample :
    ¬ ((validateTokens c4toks c4opts).map (fun e => e.tag) = ["span", "div"]) := by
  decide

theorem extractContext_40_eq (content : String) (line : Nat) :
    extractContext content line 40 = contextAmended content line := rfl

/-- C6 (amended): every returned error's context is derived from the
full source line at the error's line number - trimmed when the raw line
has at most 80 characters, otherwise the first 80 characters of the
untrimmed line with the ellipsis marker appended; the truncation window
is anchored at the start of the line and ignores the tag's column. -/
theorem spec_c6_context :
    ∀ (tokens : List TagToken) (opts : ValidateOptions),
      ∀ e ∈ validateTokens tokens opts, e.context = contextAmended opts.content e.line := by
  intro tokens opts e he
  have h := validateTokens_ctx tokens opts e he
  rw [h]
  exact extractContext_40_eq opts.content e.line

/-- C6 witness: the context of the orphaned-close error on a short line
is that line trimmed. -/
theorem spec_c6_witness :
    c6wErr.context = contextAmended c6wOpts.content c6wErr.line :=
  spec_c6_context c6wToks c6wOpts c6wErr (by decide)

/-- C6 counterexample: on a 101-character line starting with a space,
the single error's context is the first 80 raw characters plus the
ellipsis - it retains the leading space and excludes the tag's column
(90), so it is not carved out of the trimmed line as the claim
demands. -/
theorem spec_c6_counterexample :
    (validateTokens c6toks c6opts).length = 1 ∧
    (validateTokens c6toks c6opts).all (fun e => claimC6ok c6content e) = false := by
  decide

/-- C2: every occurrence of the closing-tag pattern in the raw text is
found by the exec scan, and a synthetic CLOSE token is appended for it
exactly when its lowercased name is not void, its offset was not already
emitted by the first pass, and its offset lies in no recorded exclusion
range; an injected match becomes a CLOSE token carrying the lowercased
name at the offset's (line, column). -/
theorem spec_c2_reconciliation :
    ∀ (content : String) (emitted : List Nat) (ranges : List (Nat × Nat))
      (off : Nat) (nm : String) (len : Nat),
      matchCloseAt content.data off = some (nm, len) →
      ((off, nm) ∈ scanMatches content ∧
       ((off, nm) ∈ injectedCloses content emitted ranges ↔
         (toLowerStr nm ∉ VOID_ELEMENTS ∧ off ∉ emitted ∧
           ¬ ∃ r ∈ ranges, r.1 ≤ off ∧ off ≤ r.2)) ∧
       ((off, nm) ∈ injectedCloses content emitted ranges →
         mkSynthCloseTok content off nm ∈ secondaryTokens content emitted ranges)) := by
  intro content emitted ranges off nm len h
  have hscan := scanMatches_complete content off nm len h
  refine ⟨hscan, ?_, ?_⟩
  · unfold injectedCloses
    rw [List.mem_filter]
    have hbool : ∀ b : Bool, (!b) = true ↔ b = false := by decide
    constructor
    · rintro ⟨-, hp⟩
      simp only [Bool.and_eq_true, decide_eq_true_eq, hbool] at hp
      obtain ⟨⟨h1, h2⟩, h3⟩ := hp
      refine ⟨h1, h2, ?_⟩
      rw [← isExcluded_sortRanges ranges off]
      simp [h3]
    · rintro ⟨h1, h2, h3⟩
      refine ⟨hscan, ?_⟩
      simp only [Bool.and_eq_true, decide_eq_true_eq, hbool]
      refine ⟨⟨h1, h2⟩, ?_⟩
      rw [← isExcluded_sortRanges ranges off] at h3
      exact Bool.not_eq_true _ ▸ h3
  · intro hmem
    exact List.mem_map_of_mem _ hmem

/-- C2 witness: in the bare text consisting of one closing div tag, with
nothing emitted and no exclusion ranges, the scan injects the close at
offset 0. -/
theorem spec_c2_witness :
    (0, "div") ∈ injectedCloses c2wContent [] [] :=
  ((spec_c2_reconciliation c2wContent [] [] 0 "div" 6 (by decide)).2.1).mpr (by decide)

/-- C10: the attribute-value exclusion loop registers a range exactly as
the bounded-window description states - the min with the content length
in the code's searchTo is immaterial because a found occurrence always
starts inside the content. -/
theorem spec_c10_attr_window :
    ∀ (content : String) (offset : Nat) (attrs : List (String × String)),
      attrExclusionRanges content offset attrs = attrExclusionRangesClaim content offset attrs := by
  intro content offset attrs
  unfold attrExclusionRanges attrExclusionRangesClaim
  apply List.filterMap_congr
  intro a ha
  by_cases hval : a.2 = ""
  · simp [hval]
  · simp only [if_neg hval]
    rcases hidx : strIndexOf content.data a.2.data offset with _ | idx
    · rfl
    · have hbound := strIndexOf_bound content.data a.2.data offset idx hidx
      have hne : a.2.data ≠ [] := by
        intro hnil
        apply hval
        have heta : a.2 = String.mk a.2.data := rfl
        rw [heta, hnil]
      have hlen : 1 ≤ a.2.data.length := List.length_pos.mpr hne
      have hcl : content.length = content.data.length := rfl
      have h1 : idx < content.length := by rw [hcl]; omega
      dsimp only
      by_cases hwin : idx < offset + 2048
      · rw [if_pos hwin, if_pos (by omega)]
      · rw [if_neg hwin, if_neg (by omega)]
